import Mathlib

/-
  Shallow embedding of src/generic_simulated_anneal.hpp
  (genericSimulatedAnneal and its data structures), together with
  proofs settling the specification claims about that routine.

  Modelling conventions:
  * `cost_t` is fixed to `Int` (the header requires an integral cost type).
  * `double` values that the engine compares exactly (the acceptance
    probability and the convergence ratio) are modelled by exact
    rationals, with explicit IEEE special cases (NaN, division by zero)
    where the source relies on them.  The acceptance function may return
    NaN, modelled by the `FVal` type.
  * The C `rand()` source, and the randomness inside `perturb()`, are
    injected as functions of the global inner-step counter `k`: any
    concrete execution of the C++ code corresponds to some choice of
    these functions.
  * `std::cout` diagnostic output is modelled as a list of `LogEvent`
    values accumulated alongside the state.
  * The `__FAST_MATH__` preprocessor flag is modelled by the boolean
    parameter `fastMath`: the NaN guard of lines 168-170 is compiled in
    exactly when it is true.
-/

namespace GenericSimAnnealing

/-- The glibc value of `RAND_MAX`; `rand()` yields integers in
`[0, RAND_MAX]`, both endpoints included. -/
def RANDMAX : ℕ := 2147483647

/-- A `double` value as the engine observes it from the user-supplied
acceptance function: either a finite numeric value or NaN. -/
inductive FVal where
  | num : ℚ → FVal
  | nan : FVal
deriving DecidableEq

/-- Models `std::isnan`. -/
def FVal.isNaN : FVal → Bool
  | .nan => true
  | .num _ => false

/-- Models the IEEE comparison `p > x` for a possibly-NaN `p` and a
finite `x`: every comparison with NaN is false. -/
def FVal.gtReal : FVal → ℚ → Bool
  | .nan, _ => false
  | .num p, x => decide (x < p)

/-- Models lines 168-170: under `__FAST_MATH__` (here `fastMath = true`)
a NaN acceptance probability is replaced by 0; in any other build the
value is left untouched. -/
def sanitizeProb (fastMath : Bool) (p : FVal) : FVal :=
  if fastMath && p.isNaN then FVal.num 0 else p

/-- Models the IEEE-754 evaluation of `(double(cost_new)) / cost_init < tol`
at line 188.  When `cost_init ≠ 0` the double quotient is modelled as
the exact rational quotient.  When `cost_init = 0` the quotient is
`+inf` (for `cost_new > 0`), `-inf` (for `cost_new < 0`) or NaN (for
`cost_new = 0`); a finite `tol` exceeds only `-inf`, so the comparison
holds exactly when `cost_new < 0`. -/
def convTest (cost_new cost_init : Int) (tol : ℚ) : Bool :=
  if cost_init = 0 then decide (cost_new < 0)
  else decide (Rat.divInt cost_new cost_init < tol)

/-- The exact quotient in `convTest` is ordinary rational division
(`Rat.divInt` is used only so that proofs can evaluate it). -/
theorem convTest_eq_div (cost_new cost_init : Int) (tol : ℚ)
    (h : cost_init ≠ 0) :
    convTest cost_new cost_init tol =
      decide ((cost_new : ℚ) / (cost_init : ℚ) < tol) := by
  simp [convTest, h, Rat.divInt_eq_div]

/-- One line of diagnostic output (`std::cout`), as abstract events:
lines 182-185, 189-192 and 209-212 of the source. -/
inductive LogEvent where
  | updating (outer inner : ℕ) (cost_new : Int)
  | converged (outer inner : ℕ)
  | exhausted (max_temps : ℕ)
deriving DecidableEq

/-- `GenSimAnnealResults<solution, cost_t>` with `cost_t = Int`. -/
structure GenSimAnnealResults (solution : Type) where
  best : solution
  finalcost : Int
  function_evals : ℕ
  iterations : ℕ
deriving DecidableEq

/-- `GenSimAnnealParams` (lines 62-68). -/
structure GenSimAnnealParams where
  max_temps : ℕ
  iters_per_temp : ℕ
  alpha : ℚ
  cost_reduction_tol : ℚ
  verbose : Bool
deriving DecidableEq

/-- `DEFAULT_SIM_ANNEALING_PARAMS` (lines 73-74). -/
def DEFAULT_SIM_ANNEALING_PARAMS : GenSimAnnealParams :=
  { max_temps := 100, iters_per_temp := 500, alpha := 9/10,
    cost_reduction_tol := 1/10000, verbose := false }

/-- The capabilities the templated routine consumes: the solution
type's `cost()` method, its (randomized, here step-indexed) `perturb()`
method, the acceptance functor, and the `rand()` stream (step-indexed
values in `[0, RAND_MAX]`). -/
structure RunEnv (σ : Type) where
  cost : σ → Int
  perturbF : ℕ → σ → σ
  acceptance_f : Int → Int → ℚ → FVal
  rnd : ℕ → ℕ

/-- The run-wide constants fixed before the main loop: the environment,
`tol`, `cost_init`, `verbose` and the build flag. -/
structure RunCtx (σ : Type) where
  env : RunEnv σ
  tol : ℚ
  cost_init : Int
  verbose : Bool
  fastMath : Bool

/-- The mutable loop state of lines 118-131: current solution `s` and
its cost `cost_old`, tracked `best` and `best_cost`, the `fevals`
counter, the global inner-step counter `k` (which indexes the injected
randomness) and the accumulated diagnostic output. -/
structure SimState (σ : Type) where
  s : σ
  cost_old : Int
  best : σ
  best_cost : Int
  fevals : ℕ
  k : ℕ
  log : List LogEvent
deriving DecidableEq

/-- Outcome of part of the loop: either the loop continues / falls
through with a state (`inl`), or the early `return` of line 196 fired
(`inr`, carrying the result and the output so far). -/
abbrev StepOut (σ : Type) := SimState σ ⊕ (GenSimAnnealResults σ × List LogEvent)

/-- The state after initialization (lines 112-131):
`cost_old = cost_init = s0.cost()`, `best = s = s0`, `fevals = 0`. -/
def initState {σ : Type} (env : RunEnv σ) (s0 : σ) : SimState σ :=
  { s := s0, cost_old := env.cost s0, best := s0, best_cost := env.cost s0,
    fevals := 0, k := 0, log := [] }

/-- Lines 178-198: the accepted-candidate update.  `s ← s1`,
`cost_old ← cost_new`, optional diagnostic line, then the convergence
check of line 188; if it fires, return `{ s, s.cost(), fevals,
outer_iter }` built from the just-accepted solution. -/
def acceptedUpdate {σ : Type} (C : RunCtx σ) (outer inner : ℕ) (s1 : σ)
    (cost_new : Int) (st : SimState σ) : StepOut σ :=
  let log1 := if C.verbose then st.log ++ [LogEvent.updating outer inner cost_new]
              else st.log
  if convTest cost_new C.cost_init C.tol then
    Sum.inr ({ best := s1, finalcost := C.env.cost s1,
               function_evals := st.fevals, iterations := outer },
             if C.verbose then log1 ++ [LogEvent.converged outer inner] else log1)
  else
    Sum.inl { st with s := s1, cost_old := cost_new, k := st.k + 1, log := log1 }

/-- One inner iteration (lines 136-204): perturb, evaluate the cost
(counting one evaluation), accept on strict improvement (updating the
tracked best when it beats `best_cost`), otherwise accept with the
(possibly fast-math-sanitized) probability against
`rand()/RAND_MAX`; on rejection only `s1 = s` is restored. -/
def innerStep {σ : Type} (C : RunCtx σ) (temp : ℚ) (outer inner : ℕ)
    (st : SimState σ) : StepOut σ :=
  let s1 := C.env.perturbF st.k st.s
  let cost_new := C.env.cost s1
  let st1 := { st with fevals := st.fevals + 1 }
  if cost_new < st.cost_old then
    if st.best_cost > cost_new then
      acceptedUpdate C outer inner s1 cost_new
        { st1 with best := s1, best_cost := cost_new }
    else
      acceptedUpdate C outer inner s1 cost_new st1
  else
    let acceptance_prob :=
      sanitizeProb C.fastMath (C.env.acceptance_f st.cost_old cost_new temp)
    let x : ℚ := mkRat (C.env.rnd st.k) RANDMAX
    if acceptance_prob.gtReal x then
      acceptedUpdate C outer inner s1 cost_new st1
    else
      Sum.inl { st1 with k := st1.k + 1 }

/-- The boolean `accepted` of lines 141-175, as a derived
characterization of the branch `innerStep` takes. -/
def stepAccepted {σ : Type} (C : RunCtx σ) (temp : ℚ) (st : SimState σ) : Bool :=
  let cost_new := C.env.cost (C.env.perturbF st.k st.s)
  if cost_new < st.cost_old then true
  else
    (sanitizeProb C.fastMath (C.env.acceptance_f st.cost_old cost_new temp)).gtReal
      (mkRat (C.env.rnd st.k) RANDMAX)

/-- The draw `x` is ordinary rational division of the raw `rand()`
value by `RAND_MAX` (`mkRat` is used only so that proofs can
evaluate it). -/
theorem mkRat_rnd_eq_div (r : ℕ) :
    (mkRat r RANDMAX : ℚ) = (r : ℚ) / (RANDMAX : ℚ) := by
  rw [Rat.mkRat_eq_div]
  norm_num

/-- The inner `for` loop of lines 136-205, running a given number of
remaining iterations starting at index `inner`. -/
def innerLoop {σ : Type} (C : RunCtx σ) (temp : ℚ) (outer : ℕ) :
    ℕ → ℕ → SimState σ → StepOut σ
  | 0, _, st => Sum.inl st
  | Nat.succ rem, inner, st =>
    match innerStep C temp outer inner st with
    | Sum.inl st1 => innerLoop C temp outer rem (inner + 1) st1
    | Sum.inr r => Sum.inr r

/-- The outer `for` loop of lines 134-207: run `iters_per_temp` inner
iterations at each temperature, then `temp ← temp * alpha`. -/
def outerLoop {σ : Type} (C : RunCtx σ) (iters_per_temp : ℕ) (alpha : ℚ) :
    ℕ → ℕ → ℚ → SimState σ → StepOut σ
  | 0, _, _, st => Sum.inl st
  | Nat.succ rem, outer, temp, st =>
    match innerLoop C temp outer iters_per_temp 0 st with
    | Sum.inl st1 => outerLoop C iters_per_temp alpha rem (outer + 1) (temp * alpha) st1
    | Sum.inr r => Sum.inr r

/-- The whole main loop (lines 112-207), from the initial solution,
with `temp` starting at 1.0. -/
def runLoops {σ : Type} (env : RunEnv σ) (params : GenSimAnnealParams)
    (fastMath : Bool) (s0 : σ) : StepOut σ :=
  outerLoop
    { env := env, tol := params.cost_reduction_tol, cost_init := env.cost s0,
      verbose := params.verbose, fastMath := fastMath }
    params.iters_per_temp params.alpha params.max_temps 0 1 (initState env s0)

/-- Lines 209-219: the fall-through (Exhausted) result, returning
whichever of `s` and `best` has strictly lower cost, with `best` on
ties, `fevals`, and `iterations = max_temps`. -/
def exhaustedResult {σ : Type} (env : RunEnv σ) (max_temps : ℕ) (verbose : Bool)
    (st : SimState σ) : GenSimAnnealResults σ × List LogEvent :=
  ({ best := if env.cost st.s < env.cost st.best then st.s else st.best,
     finalcost := if env.cost st.s < env.cost st.best then env.cost st.s
                  else env.cost st.best,
     function_evals := st.fevals, iterations := max_temps },
   if verbose then st.log ++ [LogEvent.exhausted max_temps] else st.log)

/-- `genericSimulatedAnneal` (lines 108-220): the main loop followed by
either the early converged return or the exhausted fall-through. -/
def genericSimulatedAnneal {σ : Type} (env : RunEnv σ)
    (params : GenSimAnnealParams) (fastMath : Bool) (s0 : σ) :
    GenSimAnnealResults σ × List LogEvent :=
  match runLoops env params fastMath s0 with
  | Sum.inl st => exhaustedResult env params.max_temps params.verbose st
  | Sum.inr r => r

end GenericSimAnnealing

namespace GenericSimAnnealing

/-- A one-point solution type with cost 0, acceptance probability 1 and
`rand()` always 0: every step is accepted and the convergence ratio is
the IEEE `0/0`. -/
def envZero : RunEnv Unit :=
  { cost := fun _ => 0, perturbF := fun _ _ => (),
    acceptance_f := fun _ _ _ => FVal.num 1, rnd := fun _ => 0 }

def paramsZero : GenSimAnnealParams :=
  { max_temps := 2, iters_per_temp := 3, alpha := mkRat 1 2,
    cost_reduction_tol := mkRat 1 2, verbose := false }

end GenericSimAnnealing

namespace GenericSimAnnealing

/-- Solutions as natural-number identifiers with cost 10 at the start
and 5 afterwards, perturbation moving to the next identifier, and an
always-accepting draw: the second accepted candidate ties the tracked
best on cost while being a different solution. -/
def envTie : RunEnv ℕ :=
  { cost := fun n => if n = 0 then 10 else 5, perturbF := fun _ n => n + 1,
    acceptance_f := fun _ _ _ => FVal.num 1, rnd := fun _ => 0 }

def paramsTie : GenSimAnnealParams :=
  { max_temps := 1, iters_per_temp := 2, alpha := mkRat 1 2,
    cost_reduction_tol := 0, verbose := false }

/-- A strictly improving first perturbation that already meets a
tolerance of 1/2: the run converges on its very first inner step. -/
def envConv : RunEnv ℕ :=
  { cost := fun n => if n = 0 then 10 else 1, perturbF := fun _ n => n + 1,
    acceptance_f := fun _ _ _ => FVal.num 0, rnd := fun _ => 0 }

def paramsConv : GenSimAnnealParams :=
  { max_temps := 3, iters_per_temp := 4, alpha := mkRat 1 2,
    cost_reduction_tol := mkRat 1 2, verbose := false }

/-- A cost function that turns negative after one perturbation: with
`cost_reduction_tol = 0` the ratio `-1/1` is below the tolerance and
the run converges early. -/
def envNeg : RunEnv ℕ :=
  { cost := fun n => if n = 0 then 1 else -1, perturbF := fun _ n => n + 1,
    acceptance_f := fun _ _ _ => FVal.num 0, rnd := fun _ => 0 }

def paramsNeg : GenSimAnnealParams :=
  { max_temps := 2, iters_per_temp := 2, alpha := mkRat 1 2,
    cost_reduction_tol := 0, verbose := false }

/-- A constant-cost solution with acceptance probability 1 and a raw
draw of `RAND_MAX`: the modelled `rand()/RAND_MAX` equals exactly 1 and
the strict comparison `1 > 1` rejects the candidate. -/
def envEdge : RunEnv Unit :=
  { cost := fun _ => 0, perturbF := fun _ _ => (),
    acceptance_f := fun _ _ _ => FVal.num 1, rnd := fun _ => RANDMAX }

def ctxEdge : RunCtx Unit :=
  { env := envEdge, tol := 0, cost_init := 0, verbose := false, fastMath := false }

end GenericSimAnnealing

namespace GenericSimAnnealing

/-- Every continuing inner step increments the evaluation counter and
the global step counter by exactly one. -/
theorem innerStep_inl_counts {σ : Type} (C : RunCtx σ) (temp : ℚ)
    (outer inner : ℕ) (st st1 : SimState σ)
    (h : innerStep C temp outer inner st = Sum.inl st1) :
    st1.fevals = st.fevals + 1 ∧ st1.k = st.k + 1 := by
  simp only [innerStep, acceptedUpdate] at h
  split_ifs at h <;>
    first
      | (injection h with h2; subst h2; exact ⟨rfl, rfl⟩)
      | injection h

end GenericSimAnnealing

namespace GenericSimAnnealing

/-- When an inner step returns early, the reported `function_evals`
counts the triggering step exactly once on top of the steps before. -/
theorem innerStep_inr_fevals {σ : Type} (C : RunCtx σ) (temp : ℚ)
    (outer inner : ℕ) (st : SimState σ)
    (p : GenSimAnnealResults σ × List LogEvent)
    (h : innerStep C temp outer inner st = Sum.inr p) :
    p.1.function_evals = st.fevals + 1 ∧ p.1.iterations = outer := by
  simp only [innerStep, acceptedUpdate] at h
  split_ifs at h <;>
    first
      | (injection h with h2; subst h2; exact ⟨rfl, rfl⟩)
      | injection h

/-- No continuing inner step increases the tracked best cost. -/
theorem innerStep_best_mono {σ : Type} (C : RunCtx σ) (temp : ℚ)
    (outer inner : ℕ) (st st1 : SimState σ)
    (h : innerStep C temp outer inner st = Sum.inl st1) :
    st1.best_cost ≤ st.best_cost := by
  simp only [innerStep, acceptedUpdate] at h
  split_ifs at h <;>
    first
      | (injection h with h2; subst h2; dsimp only; omega)
      | injection h

/-- The run invariant tying the cached costs to the cost function and
keeping the tracked best below the current cost. -/
def StateInv {σ : Type} (env : RunEnv σ) (st : SimState σ) : Prop :=
  st.best_cost ≤ st.cost_old ∧ st.cost_old = env.cost st.s ∧
    st.best_cost = env.cost st.best

/-- Every continuing inner step preserves the run invariant. -/
theorem innerStep_inv {σ : Type} (C : RunCtx σ) (temp : ℚ)
    (outer inner : ℕ) (st st1 : SimState σ)
    (hinv : StateInv C.env st)
    (h : innerStep C temp outer inner st = Sum.inl st1) :
    StateInv C.env st1 := by
  obtain ⟨h1, h2, h3⟩ := hinv
  simp only [innerStep, acceptedUpdate] at h
  split_ifs at h <;>
    first
      | (injection h with hh; subst hh;
         refine ⟨?_, ?_, ?_⟩ <;> dsimp only <;> omega)
      | injection h

end GenericSimAnnealing

namespace GenericSimAnnealing

/-- A full pass of the inner loop (no early return) performs exactly
its number of remaining iterations, each counted once in `fevals`. -/
theorem innerLoop_inl_fevals {σ : Type} (C : RunCtx σ) (temp : ℚ) (outer : ℕ) :
    ∀ (n inner : ℕ) (st st1 : SimState σ),
      innerLoop C temp outer n inner st = Sum.inl st1 →
      st1.fevals = st.fevals + n := by
  intro n
  induction n with
  | zero =>
    intro inner st st1 h
    injection h with h2
    subst h2
    rfl
  | succ m ih =>
    intro inner st st1 h
    rw [innerLoop] at h
    cases hs : innerStep C temp outer inner st with
    | inl st2 =>
      rw [hs] at h
      have hc := innerStep_inl_counts C temp outer inner st st2 hs
      have hr := ih (inner + 1) st2 st1 h
      omega
    | inr r =>
      rw [hs] at h
      injection h

/-- A full pass of the outer loop (no early return) performs exactly
`remaining * iters_per_temp` more inner steps. -/
theorem outerLoop_inl_fevals {σ : Type} (C : RunCtx σ) (iters_per_temp : ℕ)
    (alpha : ℚ) :
    ∀ (rem outer : ℕ) (temp : ℚ) (st st1 : SimState σ),
      outerLoop C iters_per_temp alpha rem outer temp st = Sum.inl st1 →
      st1.fevals = st.fevals + rem * iters_per_temp := by
  intro rem
  induction rem with
  | zero =>
    intro outer temp st st1 h
    injection h with h2
    subst h2
    simp
  | succ m ih =>
    intro outer temp st st1 h
    rw [outerLoop] at h
    cases hs : innerLoop C temp outer iters_per_temp 0 st with
    | inl st2 =>
      rw [hs] at h
      have hc := innerLoop_inl_fevals C temp outer iters_per_temp 0 st st2 hs
      have hr := ih (outer + 1) (temp * alpha) st2 st1 h
      have : (m + 1) * iters_per_temp = m * iters_per_temp + iters_per_temp :=
        Nat.succ_mul m iters_per_temp
      omega
    | inr r =>
      rw [hs] at h
      injection h

/-- A full pass of the inner loop preserves the run invariant. -/
theorem innerLoop_inv {σ : Type} (C : RunCtx σ) (temp : ℚ) (outer : ℕ) :
    ∀ (n inner : ℕ) (st st1 : SimState σ),
      StateInv C.env st →
      innerLoop C temp outer n inner st = Sum.inl st1 →
      StateInv C.env st1 := by
  intro n
  induction n with
  | zero =>
    intro inner st st1 hinv h
    injection h with h2
    subst h2
    exact hinv
  | succ m ih =>
    intro inner st st1 hinv h
    rw [innerLoop] at h
    cases hs : innerStep C temp outer inner st with
    | inl st2 =>
      rw [hs] at h
      exact ih (inner + 1) st2 st1 (innerStep_inv C temp outer inner st st2 hinv hs) h
    | inr r =>
      rw [hs] at h
      injection h

/-- A full pass of the outer loop preserves the run invariant. -/
theorem outerLoop_inv {σ : Type} (C : RunCtx σ) (iters_per_temp : ℕ)
    (alpha : ℚ) :
    ∀ (rem outer : ℕ) (temp : ℚ) (st st1 : SimState σ),
      StateInv C.env st →
      outerLoop C iters_per_temp alpha rem outer temp st = Sum.inl st1 →
      StateInv C.env st1 := by
  intro rem
  induction rem with
  | zero =>
    intro outer temp st st1 hinv h
    injection h with h2
    subst h2
    exact hinv
  | succ m ih =>
    intro outer temp st st1 hinv h
    rw [outerLoop] at h
    cases hs : innerLoop C temp outer iters_per_temp 0 st with
    | inl st2 =>
      rw [hs] at h
      exact ih (outer + 1) (temp * alpha) st2 st1
        (innerLoop_inv C temp outer iters_per_temp 0 st st2 hinv hs) h
    | inr r =>
      rw [hs] at h
      injection h

/-- A full pass of the inner loop never increases the tracked best
cost. -/
theorem innerLoop_best_mono {σ : Type} (C : RunCtx σ) (temp : ℚ) (outer : ℕ) :
    ∀ (n inner : ℕ) (st st1 : SimState σ),
      innerLoop C temp outer n inner st = Sum.inl st1 →
      st1.best_cost ≤ st.best_cost := by
  intro n
  induction n with
  | zero =>
    intro inner st st1 h
    injection h with h2
    subst h2
    exact le_refl _
  | succ m ih =>
    intro inner st st1 h
    rw [innerLoop] at h
    cases hs : innerStep C temp outer inner st with
    | inl st2 =>
      rw [hs] at h
      exact le_trans (ih (inner + 1) st2 st1 h)
        (innerStep_best_mono C temp outer inner st st2 hs)
    | inr r =>
      rw [hs] at h
      injection h

/-- A full pass of the outer loop never increases the tracked best
cost. -/
theorem outerLoop_best_mono {σ : Type} (C : RunCtx σ) (iters_per_temp : ℕ)
    (alpha : ℚ) :
    ∀ (rem outer : ℕ) (temp : ℚ) (st st1 : SimState σ),
      outerLoop C iters_per_temp alpha rem outer temp st = Sum.inl st1 →
      st1.best_cost ≤ st.best_cost := by
  intro rem
  induction rem with
  | zero =>
    intro outer temp st st1 h
    injection h with h2
    subst h2
    exact le_refl _
  | succ m ih =>
    intro outer temp st st1 h
    rw [outerLoop] at h
    cases hs : innerLoop C temp outer iters_per_temp 0 st with
    | inl st2 =>
      rw [hs] at h
      exact le_trans (ih (outer + 1) (temp * alpha) st2 st1 h)
        (innerLoop_best_mono C temp outer iters_per_temp 0 st st2 hs)
    | inr r =>
      rw [hs] at h
      injection h

end GenericSimAnnealing

namespace GenericSimAnnealing

/-- The initial state satisfies the run invariant. -/
theorem initState_inv {σ : Type} (env : RunEnv σ) (s0 : σ) :
    StateInv env (initState env s0) :=
  ⟨le_refl _, rfl, rfl⟩

/-- An early return can only fire when the convergence test holds for
the step's candidate cost. -/
theorem innerStep_inr_convTest {σ : Type} (C : RunCtx σ) (temp : ℚ)
    (outer inner : ℕ) (st : SimState σ)
    (p : GenSimAnnealResults σ × List LogEvent)
    (h : innerStep C temp outer inner st = Sum.inr p) :
    convTest (C.env.cost (C.env.perturbF st.k st.s)) C.cost_init C.tol = true := by
  simp only [innerStep, acceptedUpdate] at h
  split_ifs at h <;> first | assumption | injection h

/-- When the convergence test fails for the candidate, the step
continues. -/
theorem innerStep_no_ret {σ : Type} (C : RunCtx σ) (temp : ℚ)
    (outer inner : ℕ) (st : SimState σ)
    (h : convTest (C.env.cost (C.env.perturbF st.k st.s)) C.cost_init C.tol = false) :
    ∃ st1, innerStep C temp outer inner st = Sum.inl st1 := by
  cases hs : innerStep C temp outer inner st with
  | inl st1 => exact ⟨st1, rfl⟩
  | inr p =>
    have := innerStep_inr_convTest C temp outer inner st p hs
    rw [h] at this
    exact absurd this (by simp)

/-- With a zero tolerance and non-negative costs the IEEE comparison
`cost_new / cost_init < 0` never holds, division by zero included. -/
theorem convTest_nonneg_zero (cn ci : Int) (h1 : 0 ≤ cn) (h2 : 0 ≤ ci) :
    convTest cn ci 0 = false := by
  unfold convTest
  split_ifs with h
  · simp only [decide_eq_false_iff_not, not_lt]
    exact h1
  · simp only [decide_eq_false_iff_not, not_lt]
    rw [Rat.divInt_eq_div]
    apply div_nonneg
    · exact_mod_cast h1
    · exact_mod_cast h2

/-- Under a zero tolerance and non-negative costs, the inner loop runs
to completion. -/
theorem innerLoop_no_conv {σ : Type} (C : RunCtx σ) (temp : ℚ) (outer : ℕ)
    (htol : C.tol = 0) (hci : 0 ≤ C.cost_init) (hc : ∀ s, 0 ≤ C.env.cost s) :
    ∀ (n inner : ℕ) (st : SimState σ),
      ∃ st1, innerLoop C temp outer n inner st = Sum.inl st1 := by
  intro n
  induction n with
  | zero => intro inner st; exact ⟨st, rfl⟩
  | succ m ih =>
    intro inner st
    obtain ⟨st2, hs⟩ := innerStep_no_ret C temp outer inner st
      (htol ▸ convTest_nonneg_zero _ _ (hc _) hci)
    obtain ⟨st1, hl⟩ := ih (inner + 1) st2
    exact ⟨st1, by rw [innerLoop, hs]; exact hl⟩

/-- Under a zero tolerance and non-negative costs, the outer loop runs
to completion. -/
theorem outerLoop_no_conv {σ : Type} (C : RunCtx σ) (iters_per_temp : ℕ)
    (alpha : ℚ)
    (htol : C.tol = 0) (hci : 0 ≤ C.cost_init) (hc : ∀ s, 0 ≤ C.env.cost s) :
    ∀ (rem outer : ℕ) (temp : ℚ) (st : SimState σ),
      ∃ st1, outerLoop C iters_per_temp alpha rem outer temp st = Sum.inl st1 := by
  intro rem
  induction rem with
  | zero => intro outer temp st; exact ⟨st, rfl⟩
  | succ m ih =>
    intro outer temp st
    obtain ⟨st2, hs⟩ := innerLoop_no_conv C temp outer htol hci hc iters_per_temp 0 st
    obtain ⟨st1, hl⟩ := ih (outer + 1) (temp * alpha) st2
    exact ⟨st1, by rw [outerLoop, hs]; exact hl⟩

end GenericSimAnnealing

namespace GenericSimAnnealing

/-- Equality of two loop states on everything except the accumulated
diagnostic output. -/
def coreEq {σ : Type} (st1 st2 : SimState σ) : Prop :=
  st1.s = st2.s ∧ st1.cost_old = st2.cost_old ∧ st1.best = st2.best ∧
    st1.best_cost = st2.best_cost ∧ st1.fevals = st2.fevals ∧ st1.k = st2.k

theorem coreEq_refl {σ : Type} (st : SimState σ) : coreEq st st :=
  ⟨rfl, rfl, rfl, rfl, rfl, rfl⟩

/-- Two inner steps that differ only in `verbose` (and in the log part
of their states) take the same branch and produce the same data, up to
the log. -/
theorem innerStep_verbose {σ : Type} (env : RunEnv σ) (tol : ℚ) (ci : Int)
    (v w fm : Bool) (temp : ℚ) (outer inner : ℕ) (st1 st2 : SimState σ)
    (h : coreEq st1 st2) :
    (∃ t1 t2, innerStep ⟨env, tol, ci, v, fm⟩ temp outer inner st1 = Sum.inl t1 ∧
              innerStep ⟨env, tol, ci, w, fm⟩ temp outer inner st2 = Sum.inl t2 ∧
              coreEq t1 t2) ∨
    (∃ r l1 l2, innerStep ⟨env, tol, ci, v, fm⟩ temp outer inner st1 = Sum.inr (r, l1) ∧
                innerStep ⟨env, tol, ci, w, fm⟩ temp outer inner st2 = Sum.inr (r, l2)) := by
  obtain ⟨sa, ca, ba, bca, fa, ka, la⟩ := st1
  obtain ⟨sb, cb, bb, bcb, fb, kb, lb⟩ := st2
  obtain ⟨e1, e2, e3, e4, e5, e6⟩ := h
  dsimp only at e1 e2 e3 e4 e5 e6
  subst e1; subst e2; subst e3; subst e4; subst e5; subst e6
  simp only [innerStep, acceptedUpdate]
  split_ifs <;>
    first
      | (left; exact ⟨_, _, rfl, rfl, rfl, rfl, rfl, rfl, rfl, rfl⟩)
      | (right; exact ⟨_, _, _, rfl, rfl⟩)

/-- The inner loop is insensitive to `verbose` except for the log. -/
theorem innerLoop_verbose {σ : Type} (env : RunEnv σ) (tol : ℚ) (ci : Int)
    (v w fm : Bool) (temp : ℚ) (outer : ℕ) :
    ∀ (n inner : ℕ) (st1 st2 : SimState σ), coreEq st1 st2 →
      (∃ t1 t2, innerLoop ⟨env, tol, ci, v, fm⟩ temp outer n inner st1 = Sum.inl t1 ∧
                innerLoop ⟨env, tol, ci, w, fm⟩ temp outer n inner st2 = Sum.inl t2 ∧
                coreEq t1 t2) ∨
      (∃ r l1 l2,
          innerLoop ⟨env, tol, ci, v, fm⟩ temp outer n inner st1 = Sum.inr (r, l1) ∧
          innerLoop ⟨env, tol, ci, w, fm⟩ temp outer n inner st2 = Sum.inr (r, l2)) := by
  intro n
  induction n with
  | zero =>
    intro inner st1 st2 h
    left
    exact ⟨st1, st2, rfl, rfl, h⟩
  | succ m ih =>
    intro inner st1 st2 h
    rcases innerStep_verbose env tol ci v w fm temp outer inner st1 st2 h with
      ⟨t1, t2, hs1, hs2, hc⟩ | ⟨r, l1, l2, hs1, hs2⟩
    · simp only [innerLoop, hs1, hs2]
      exact ih (inner + 1) t1 t2 hc
    · simp only [innerLoop, hs1, hs2]
      right
      exact ⟨r, l1, l2, rfl, rfl⟩

/-- The outer loop is insensitive to `verbose` except for the log. -/
theorem outerLoop_verbose {σ : Type} (env : RunEnv σ) (tol : ℚ) (ci : Int)
    (v w fm : Bool) (iters_per_temp : ℕ) (alpha : ℚ) :
    ∀ (rem outer : ℕ) (temp : ℚ) (st1 st2 : SimState σ), coreEq st1 st2 →
      (∃ t1 t2,
          outerLoop ⟨env, tol, ci, v, fm⟩ iters_per_temp alpha rem outer temp st1 =
            Sum.inl t1 ∧
          outerLoop ⟨env, tol, ci, w, fm⟩ iters_per_temp alpha rem outer temp st2 =
            Sum.inl t2 ∧
          coreEq t1 t2) ∨
      (∃ r l1 l2,
          outerLoop ⟨env, tol, ci, v, fm⟩ iters_per_temp alpha rem outer temp st1 =
            Sum.inr (r, l1) ∧
          outerLoop ⟨env, tol, ci, w, fm⟩ iters_per_temp alpha rem outer temp st2 =
            Sum.inr (r, l2)) := by
  intro rem
  induction rem with
  | zero =>
    intro outer temp st1 st2 h
    left
    exact ⟨st1, st2, rfl, rfl, h⟩
  | succ m ih =>
    intro outer temp st1 st2 h
    rcases innerLoop_verbose env tol ci v w fm temp outer iters_per_temp 0 st1 st2 h with
      ⟨t1, t2, hs1, hs2, hc⟩ | ⟨r, l1, l2, hs1, hs2⟩
    · simp only [outerLoop, hs1, hs2]
      exact ih (outer + 1) (temp * alpha) t1 t2 hc
    · simp only [outerLoop, hs1, hs2]
      right
      exact ⟨r, l1, l2, rfl, rfl⟩

/-- The data part of the exhausted result depends only on the log-free
part of the final state, not on `verbose`. -/
theorem exhaustedResult_core {σ : Type} (env : RunEnv σ) (max_temps : ℕ)
    (v w : Bool) (st1 st2 : SimState σ) (h : coreEq st1 st2) :
    (exhaustedResult env max_temps v st1).1 =
      (exhaustedResult env max_temps w st2).1 := by
  obtain ⟨e1, e2, e3, e4, e5, e6⟩ := h
  simp only [exhaustedResult, e1, e3, e5]

end GenericSimAnnealing

namespace GenericSimAnnealing

/-- Whenever the early return fires, the result is built from the
just-accepted candidate: its solution, its cost (`s.cost()` after
`s = s1`), the incremented counter, and the current outer index. -/
theorem innerStep_inr_result {σ : Type} (C : RunCtx σ) (temp : ℚ)
    (outer inner : ℕ) (st : SimState σ)
    (p : GenSimAnnealResults σ × List LogEvent)
    (h : innerStep C temp outer inner st = Sum.inr p) :
    p.1 = { best := C.env.perturbF st.k st.s,
            finalcost := C.env.cost (C.env.perturbF st.k st.s),
            function_evals := st.fevals + 1, iterations := outer } := by
  simp only [innerStep, acceptedUpdate] at h
  split_ifs at h <;> first | (injection h with hh; subst hh; rfl) | injection h

/-- The early return can only fire on an accepted step. -/
theorem innerStep_inr_accepted {σ : Type} (C : RunCtx σ) (temp : ℚ)
    (outer inner : ℕ) (st : SimState σ)
    (p : GenSimAnnealResults σ × List LogEvent)
    (h : innerStep C temp outer inner st = Sum.inr p) :
    stepAccepted C temp st = true := by
  simp only [innerStep, acceptedUpdate] at h
  split_ifs at h <;> first | (simp_all [stepAccepted]) | injection h

/-- A continuing step is either a rejection (state unchanged except the
two counters) or an acceptance whose convergence test failed (current
solution and cost replaced by the candidate's). -/
theorem innerStep_inl_cases {σ : Type} (C : RunCtx σ) (temp : ℚ)
    (outer inner : ℕ) (st st1 : SimState σ)
    (h : innerStep C temp outer inner st = Sum.inl st1) :
    (stepAccepted C temp st = false ∧
       st1 = { st with fevals := st.fevals + 1, k := st.k + 1 }) ∨
    (stepAccepted C temp st = true ∧
       convTest (C.env.cost (C.env.perturbF st.k st.s)) C.cost_init C.tol = false ∧
       st1.s = C.env.perturbF st.k st.s ∧
       st1.cost_old = C.env.cost (C.env.perturbF st.k st.s)) := by
  simp only [innerStep, acceptedUpdate] at h
  split_ifs at h <;>
    first
      | (injection h with hh; subst hh;
         first
           | (left; exact ⟨by simp_all [stepAccepted], rfl⟩)
           | (right; exact ⟨by simp_all [stepAccepted], by simp_all, rfl, rfl⟩))
      | injection h

/-- A rejected step only restores the scratch copy: the state is
unchanged except for the two counters. -/
theorem innerStep_rejected {σ : Type} (C : RunCtx σ) (temp : ℚ)
    (outer inner : ℕ) (st : SimState σ)
    (hacc : stepAccepted C temp st = false) :
    innerStep C temp outer inner st =
      Sum.inl { st with fevals := st.fevals + 1, k := st.k + 1 } := by
  cases hs : innerStep C temp outer inner st with
  | inl st1 =>
    rcases innerStep_inl_cases C temp outer inner st st1 hs with ⟨_, h2⟩ | ⟨h1, _⟩
    · rw [h2]
    · rw [hacc] at h1
      exact absurd h1 (by simp)
  | inr p =>
    have := innerStep_inr_accepted C temp outer inner st p hs
    rw [hacc] at this
    exact absurd this (by simp)

end GenericSimAnnealing

namespace GenericSimAnnealing

/-- An acceptance functor that always returns NaN over a constant-cost
solution (every candidate is non-improving). -/
def envNan : RunEnv Unit :=
  { cost := fun _ => 0, perturbF := fun _ _ => (),
    acceptance_f := fun _ _ _ => FVal.nan, rnd := fun _ => 0 }

def ctxNan : RunCtx Unit :=
  { env := envNan, tol := 0, cost_init := 0, verbose := false, fastMath := false }

/-- C1, counterexample: the NaN sanitization of lines 168-170 is under
`#ifdef __FAST_MATH__`, so in a build without the fast-math flag a NaN
acceptance probability is left as NaN rather than being replaced by 0:
the sanitization is not performed unconditionally. -/
theorem C1_counterexample :
    sanitizeProb false FVal.nan = FVal.nan ∧
      sanitizeProb true FVal.nan = FVal.num 0 ∧ FVal.nan ≠ FVal.num 0 := by
  refine ⟨rfl, rfl, by decide⟩

/-- C1, amended: whenever the acceptance function returns NaN for a
non-improving candidate, the candidate is rejected in *either* build —
without fast-math because the IEEE comparison `NaN > x` is false, with
fast-math because the guard replaces NaN by 0 and `0 > x` fails for the
non-negative draw — but the sanitization itself runs only in fast-math
builds. -/
theorem C1_nan_rejected {σ : Type} (C : RunCtx σ) (temp : ℚ)
    (outer inner : ℕ) (st : SimState σ)
    (hni : ¬ C.env.cost (C.env.perturbF st.k st.s) < st.cost_old)
    (hnan : C.env.acceptance_f st.cost_old
        (C.env.cost (C.env.perturbF st.k st.s)) temp = FVal.nan) :
    innerStep C temp outer inner st =
      Sum.inl { st with fevals := st.fevals + 1, k := st.k + 1 } := by
  apply innerStep_rejected
  have hx : 0 ≤ (mkRat (C.env.rnd st.k) RANDMAX : ℚ) := by
    rw [mkRat_rnd_eq_div]
    positivity
  simp only [stepAccepted, hnan]
  rw [if_neg hni]
  cases hfm : C.fastMath with
  | false => rfl
  | true =>
    show (FVal.num 0).gtReal (mkRat (C.env.rnd st.k) RANDMAX) = false
    simp only [FVal.gtReal, decide_eq_false_iff_not, not_lt]
    exact hx

/-- C1, witness for the amended theorem: a concrete non-improving step
with a NaN acceptance probability is rejected. -/
theorem C1_witness :
    innerStep ctxNan 1 0 0 (initState envNan ()) =
      Sum.inl { s := (), cost_old := 0, best := (), best_cost := 0,
                fevals := 1, k := 1, log := [] } :=
  C1_nan_rejected ctxNan 1 0 0 (initState envNan ()) (by decide) rfl

/-- C2: with an initial cost of 0 and a non-zero tolerance the engine
performs no validation at all: it enters the main loop, evaluates the
convergence ratio `0/0` (IEEE NaN, never below the tolerance) on every
accepted step, and returns an ordinary Exhausted result — there is no
error value in the interface, contradicting the fail-fast requirement. -/
theorem C2_zero_cost_init_no_error :
    envZero.cost () = 0 ∧ paramsZero.cost_reduction_tol ≠ 0 ∧
    genericSimulatedAnneal envZero paramsZero false () =
      ({ best := (), finalcost := 0, function_evals := 6, iterations := 2 }, []) := by
  refine ⟨rfl, by decide, by decide⟩

/-- C3, counterexample: a run in which the final current solution (2)
and the tracked best solution (1) are distinct with equal costs; the
exhausted result reports the tracked best, not the current solution, so
ties favor `best`, not `current`. -/
theorem C3_counterexample :
    runLoops envTie paramsTie false 0 =
      Sum.inl { s := 2, cost_old := 5, best := 1, best_cost := 5,
                fevals := 2, k := 2, log := [] } ∧
    envTie.cost 2 = envTie.cost 1 ∧
    (genericSimulatedAnneal envTie paramsTie false 0).1.best = 1 ∧
    (2 : ℕ) ≠ 1 := by
  refine ⟨by decide, by decide, by decide, by decide⟩

/-- C3, amended: on the Exhausted path the result carries whichever of
the current and tracked best solutions has strictly lower cost, with
ties resolved to the tracked best (line 217 uses a strict `<` that
falls to `best` on equality), and `iterations = max_temps`. -/
theorem C3_exhausted_result {σ : Type} (env : RunEnv σ)
    (params : GenSimAnnealParams) (fm : Bool) (s0 : σ) (st : SimState σ)
    (h : runLoops env params fm s0 = Sum.inl st) :
    (env.cost st.s < env.cost st.best →
       (genericSimulatedAnneal env params fm s0).1.best = st.s ∧
       (genericSimulatedAnneal env params fm s0).1.finalcost = env.cost st.s) ∧
    (¬ env.cost st.s < env.cost st.best →
       (genericSimulatedAnneal env params fm s0).1.best = st.best ∧
       (genericSimulatedAnneal env params fm s0).1.finalcost = env.cost st.best) ∧
    (genericSimulatedAnneal env params fm s0).1.iterations = params.max_temps ∧
    (genericSimulatedAnneal env params fm s0).1.function_evals = st.fevals := by
  have hg : genericSimulatedAnneal env params fm s0 =
      exhaustedResult env params.max_temps params.verbose st := by
    simp only [genericSimulatedAnneal, h]
  rw [hg]
  unfold exhaustedResult
  refine ⟨fun hlt => ?_, fun hlt => ?_, rfl, rfl⟩
  · exact ⟨by dsimp only; rw [if_pos hlt], by dsimp only; rw [if_pos hlt]⟩
  · exact ⟨by dsimp only; rw [if_neg hlt], by dsimp only; rw [if_neg hlt]⟩

/-- C3, witness: on the concrete tie run the amended description holds:
the result is the tracked best with `iterations = max_temps`. -/
theorem C3_witness :
    (genericSimulatedAnneal envTie paramsTie false 0).1.best = 1 ∧
    (genericSimulatedAnneal envTie paramsTie false 0).1.iterations =
      paramsTie.max_temps := by
  have h := C3_exhausted_result envTie paramsTie false 0
    { s := 2, cost_old := 5, best := 1, best_cost := 5,
      fevals := 2, k := 2, log := [] } (by decide)
  exact ⟨(h.2.1 (by decide)).1, h.2.2.1⟩

end GenericSimAnnealing

namespace GenericSimAnnealing

def ctxConv : RunCtx ℕ :=
  { env := envConv, tol := mkRat 1 2, cost_init := 10,
    verbose := false, fastMath := false }

/-- C4: on an accepted step the engine installs the candidate as the
current solution with `cost_old = cost_new`; if the convergence test
then fires, it returns immediately with a Result built from that
just-accepted solution (its solution and its cost, not the tracked
best's), and the convergence test is consulted on no other kind of
step — a rejected step always continues. -/
theorem C4_converged_from_current {σ : Type} (C : RunCtx σ) (temp : ℚ)
    (outer inner : ℕ) (st : SimState σ) :
    (stepAccepted C temp st = true →
       convTest (C.env.cost (C.env.perturbF st.k st.s)) C.cost_init C.tol = true →
       ∃ l, innerStep C temp outer inner st =
         Sum.inr ({ best := C.env.perturbF st.k st.s,
                    finalcost := C.env.cost (C.env.perturbF st.k st.s),
                    function_evals := st.fevals + 1, iterations := outer }, l)) ∧
    (stepAccepted C temp st = true →
       convTest (C.env.cost (C.env.perturbF st.k st.s)) C.cost_init C.tol = false →
       ∃ st1, innerStep C temp outer inner st = Sum.inl st1 ∧
         st1.s = C.env.perturbF st.k st.s ∧
         st1.cost_old = C.env.cost (C.env.perturbF st.k st.s)) ∧
    (stepAccepted C temp st = false →
       innerStep C temp outer inner st =
         Sum.inl { st with fevals := st.fevals + 1, k := st.k + 1 }) := by
  refine ⟨fun hacc hconv => ?_, fun hacc hconv => ?_, fun hacc => ?_⟩
  · cases hs : innerStep C temp outer inner st with
    | inl st1 =>
      rcases innerStep_inl_cases C temp outer inner st st1 hs with
        ⟨h1, _⟩ | ⟨_, h2, _, _⟩
      · rw [hacc] at h1
        exact absurd h1 (by simp)
      · rw [hconv] at h2
        exact absurd h2 (by simp)
    | inr p =>
      obtain ⟨r, l⟩ := p
      have hres := innerStep_inr_result C temp outer inner st (r, l) hs
      dsimp only at hres
      subst hres
      exact ⟨l, rfl⟩
  · cases hs : innerStep C temp outer inner st with
    | inl st1 =>
      rcases innerStep_inl_cases C temp outer inner st st1 hs with
        ⟨h1, _⟩ | ⟨_, _, h3, h4⟩
      · rw [hacc] at h1
        exact absurd h1 (by simp)
      · exact ⟨st1, rfl, h3, h4⟩
    | inr p =>
      have := innerStep_inr_convTest C temp outer inner st p hs
      rw [hconv] at this
      exact absurd this (by simp)
  · exact innerStep_rejected C temp outer inner st hacc

/-- C4, witness: the first step of the concrete converging run is
accepted, meets the tolerance, and returns the just-accepted solution
1 with its cost 1 after a single evaluation at outer iteration 0. -/
theorem C4_witness :
    ∃ l, innerStep ctxConv 1 0 0 (initState envConv 0) =
      Sum.inr ({ best := 1, finalcost := 1, function_evals := 1,
                 iterations := 0 }, l) :=
  (C4_converged_from_current ctxConv 1 0 0 (initState envConv 0)).1
    (by decide) (by decide)

/-- C5, counterexample: with `cost_reduction_tol = 0` but a candidate
whose cost is negative, the ratio `-1/1` is below 0 and the engine
takes the early Converged exit after a single inner step instead of the
claimed `max_temps * iters_per_temp = 4` steps. -/
theorem C5_counterexample :
    paramsNeg.cost_reduction_tol = 0 ∧
    genericSimulatedAnneal envNeg paramsNeg false 0 =
      ({ best := 1, finalcost := -1, function_evals := 1, iterations := 0 }, []) ∧
    (1 : ℕ) ≠ paramsNeg.max_temps * paramsNeg.iters_per_temp ∧
    (0 : ℕ) ≠ paramsNeg.max_temps := by
  refine ⟨rfl, by decide, by decide, by decide⟩

/-- C5, amended: with `cost_reduction_tol = 0` and a cost function that
never goes negative (so that the ratio `cost_new / cost_init`, IEEE
division by zero included, is never below 0), the engine never takes
the early Converged exit and performs exactly
`max_temps * iters_per_temp` inner steps before returning through the
Exhausted path. -/
theorem C5_zero_tol_exhausts {σ : Type} (env : RunEnv σ)
    (params : GenSimAnnealParams) (fm : Bool) (s0 : σ)
    (htol : params.cost_reduction_tol = 0)
    (hc : ∀ s, 0 ≤ env.cost s) :
    ∃ st, runLoops env params fm s0 = Sum.inl st ∧
      st.fevals = params.max_temps * params.iters_per_temp ∧
      (genericSimulatedAnneal env params fm s0).1.function_evals =
        params.max_temps * params.iters_per_temp ∧
      (genericSimulatedAnneal env params fm s0).1.iterations =
        params.max_temps := by
  obtain ⟨st, h⟩ := outerLoop_no_conv
    ⟨env, params.cost_reduction_tol, env.cost s0, params.verbose, fm⟩
    params.iters_per_temp params.alpha htol (hc s0) hc
    params.max_temps 0 1 (initState env s0)
  have hrun : runLoops env params fm s0 = Sum.inl st := h
  have hf := outerLoop_inl_fevals
    ⟨env, params.cost_reduction_tol, env.cost s0, params.verbose, fm⟩
    params.iters_per_temp params.alpha params.max_temps 0 1
    (initState env s0) st h
  have hf0 : st.fevals = params.max_temps * params.iters_per_temp := by
    rw [hf]
    simp [initState]
  refine ⟨st, hrun, hf0, ?_, ?_⟩ <;>
    simp only [genericSimulatedAnneal, hrun, exhaustedResult] <;>
    exact hf0

/-- C5, witness for the amended theorem: the tie run has zero tolerance
and non-negative costs; it exhausts with exactly `1 * 2` inner steps. -/
theorem C5_witness :
    ∃ st, runLoops envTie paramsTie false 0 = Sum.inl st ∧
      st.fevals = paramsTie.max_temps * paramsTie.iters_per_temp ∧
      (genericSimulatedAnneal envTie paramsTie false 0).1.function_evals =
        paramsTie.max_temps * paramsTie.iters_per_temp ∧
      (genericSimulatedAnneal envTie paramsTie false 0).1.iterations =
        paramsTie.max_temps :=
  C5_zero_tol_exhausts envTie paramsTie false 0 rfl
    (by intro s; dsimp only [envTie]; split_ifs <;> decide)

end GenericSimAnnealing

namespace GenericSimAnnealing

/-- C6: `fevals` is incremented exactly once per inner step attempted —
a continuing step adds exactly 1, an early return reports the steps so
far plus exactly 1 for the triggering step, and a run that exhausts the
loops reports exactly `max_temps * iters_per_temp` — so no candidate is
ever double-counted. -/
theorem C6_one_eval_per_step {σ : Type} (env : RunEnv σ)
    (params : GenSimAnnealParams) (fm : Bool) (s0 : σ) :
    (∀ (C : RunCtx σ) (temp : ℚ) (outer inner : ℕ) (st st1 : SimState σ),
       innerStep C temp outer inner st = Sum.inl st1 →
       st1.fevals = st.fevals + 1) ∧
    (∀ (C : RunCtx σ) (temp : ℚ) (outer inner : ℕ) (st : SimState σ)
       (p : GenSimAnnealResults σ × List LogEvent),
       innerStep C temp outer inner st = Sum.inr p →
       p.1.function_evals = st.fevals + 1) ∧
    (∀ st, runLoops env params fm s0 = Sum.inl st →
       (genericSimulatedAnneal env params fm s0).1.function_evals =
         params.max_temps * params.iters_per_temp) := by
  refine ⟨fun C temp outer inner st st1 h =>
            (innerStep_inl_counts C temp outer inner st st1 h).1,
          fun C temp outer inner st p h =>
            (innerStep_inr_fevals C temp outer inner st p h).1,
          fun st h => ?_⟩
  have hf := outerLoop_inl_fevals
    ⟨env, params.cost_reduction_tol, env.cost s0, params.verbose, fm⟩
    params.iters_per_temp params.alpha params.max_temps 0 1
    (initState env s0) st h
  simp only [genericSimulatedAnneal, h, exhaustedResult]
  rw [hf]
  simp [initState]

/-- C6, witness: the zero-cost run attempts all `2 * 3` inner steps and
reports exactly 6 evaluations. -/
theorem C6_witness :
    (genericSimulatedAnneal envZero paramsZero false ()).1.function_evals =
      paramsZero.max_temps * paramsZero.iters_per_temp :=
  (C6_one_eval_per_step envZero paramsZero false ()).2.2
    { s := (), cost_old := 0, best := (), best_cost := 0,
      fevals := 6, k := 6, log := [] } (by decide)

/-- The tracked best cost in effect at the end of an inner step's
accept phase: the best-update of lines 149-155 (applied only to an
improving candidate that beats the stored best) has already run by the
time the early return of line 196 can execute. -/
def stepBestCost {σ : Type} (C : RunCtx σ) (st : SimState σ) : Int :=
  let cost_new := C.env.cost (C.env.perturbF st.k st.s)
  if cost_new < st.cost_old then
    if st.best_cost > cost_new then cost_new else st.best_cost
  else st.best_cost

/-- The best-update inside an inner step never increases the tracked
best cost. -/
theorem stepBestCost_le {σ : Type} (C : RunCtx σ) (st : SimState σ) :
    stepBestCost C st ≤ st.best_cost := by
  simp only [stepBestCost]
  split_ifs <;> omega

/-- At an early (Converged) return, the tracked best cost in effect at
the return is at most the returned final cost, and that final cost is
the returned current solution's own cost. -/
theorem innerStep_inr_bestCost {σ : Type} (C : RunCtx σ) (temp : ℚ)
    (outer inner : ℕ) (st : SimState σ)
    (p : GenSimAnnealResults σ × List LogEvent)
    (h0 : st.best_cost ≤ st.cost_old)
    (h : innerStep C temp outer inner st = Sum.inr p) :
    stepBestCost C st ≤ p.1.finalcost ∧ p.1.finalcost = C.env.cost p.1.best := by
  have hres := innerStep_inr_result C temp outer inner st p h
  rw [hres]
  refine ⟨?_, rfl⟩
  dsimp only
  simp only [stepBestCost]
  split_ifs <;> omega

/-- An inner loop that returns early does so from some reachable state
(invariant preserved, best cost no larger than at loop entry) whose
single step produced the result. -/
theorem innerLoop_inr_ex {σ : Type} (C : RunCtx σ) (temp : ℚ) (outer : ℕ) :
    ∀ (n inner : ℕ) (st : SimState σ)
      (p : GenSimAnnealResults σ × List LogEvent),
      StateInv C.env st →
      innerLoop C temp outer n inner st = Sum.inr p →
      ∃ inner1 st1, StateInv C.env st1 ∧ st1.best_cost ≤ st.best_cost ∧
        innerStep C temp outer inner1 st1 = Sum.inr p := by
  intro n
  induction n with
  | zero =>
    intro inner st p _ h
    injection h
  | succ m ih =>
    intro inner st p hinv h
    rw [innerLoop] at h
    cases hs : innerStep C temp outer inner st with
    | inl st2 =>
      rw [hs] at h
      obtain ⟨inner1, st1, hi, hm, hstep⟩ := ih (inner + 1) st2 p
        (innerStep_inv C temp outer inner st st2 hinv hs) h
      exact ⟨inner1, st1, hi,
        le_trans hm (innerStep_best_mono C temp outer inner st st2 hs), hstep⟩
    | inr q =>
      rw [hs] at h
      injection h with h2
      subst h2
      exact ⟨inner, st, hinv, le_refl _, hs⟩

/-- An outer loop that returns early does so from some reachable state
whose single step produced the result. -/
theorem outerLoop_inr_ex {σ : Type} (C : RunCtx σ) (iters_per_temp : ℕ)
    (alpha : ℚ) :
    ∀ (rem outer : ℕ) (temp : ℚ) (st : SimState σ)
      (p : GenSimAnnealResults σ × List LogEvent),
      StateInv C.env st →
      outerLoop C iters_per_temp alpha rem outer temp st = Sum.inr p →
      ∃ (temp1 : ℚ) (outer1 inner1 : ℕ) (st1 : SimState σ),
        StateInv C.env st1 ∧ st1.best_cost ≤ st.best_cost ∧
        innerStep C temp1 outer1 inner1 st1 = Sum.inr p := by
  intro rem
  induction rem with
  | zero =>
    intro outer temp st p _ h
    injection h
  | succ m ih =>
    intro outer temp st p hinv h
    rw [outerLoop] at h
    cases hs : innerLoop C temp outer iters_per_temp 0 st with
    | inl st2 =>
      rw [hs] at h
      obtain ⟨temp1, outer1, inner1, st1, hi, hm, hstep⟩ :=
        ih (outer + 1) (temp * alpha) st2 p
          (innerLoop_inv C temp outer iters_per_temp 0 st st2 hinv hs) h
      exact ⟨temp1, outer1, inner1, st1, hi,
        le_trans hm (innerLoop_best_mono C temp outer iters_per_temp 0 st st2 hs),
        hstep⟩
    | inr q =>
      rw [hs] at h
      injection h with h2
      obtain ⟨inner1, st1, hi, hm, hstep⟩ :=
        innerLoop_inr_ex C temp outer iters_per_temp 0 st q hinv hs
      exact ⟨temp, outer, inner1, st1, hi, hm, h2 ▸ hstep⟩

/-- C7: the tracked best cost never increases — not on a continuing
step and not on the converging step's own best-update — a whole run
never raises it above the initial cost, and at termination it is at
most the current solution's cost: at Exhausted termination
`best_cost ≤ cost_old = cost(current)`, and at Converged termination
the best cost in effect at the return is at most the returned
solution's final cost, which is the returned current solution's own
cost. -/
theorem C7_best_cost_monotone {σ : Type} (env : RunEnv σ)
    (params : GenSimAnnealParams) (fm : Bool) (s0 : σ) :
    (∀ (C : RunCtx σ) (temp : ℚ) (outer inner : ℕ) (st st1 : SimState σ),
       innerStep C temp outer inner st = Sum.inl st1 →
       st1.best_cost ≤ st.best_cost) ∧
    (∀ (C : RunCtx σ) (st : SimState σ), stepBestCost C st ≤ st.best_cost) ∧
    (∀ (C : RunCtx σ) (temp : ℚ) (outer inner : ℕ) (st : SimState σ)
       (p : GenSimAnnealResults σ × List LogEvent),
       st.best_cost ≤ st.cost_old →
       innerStep C temp outer inner st = Sum.inr p →
       stepBestCost C st ≤ p.1.finalcost ∧ p.1.finalcost = C.env.cost p.1.best) ∧
    (∀ st, runLoops env params fm s0 = Sum.inl st →
       st.best_cost ≤ env.cost s0 ∧ st.best_cost ≤ st.cost_old ∧
       st.best_cost ≤ env.cost st.s) ∧
    (∀ (r : GenSimAnnealResults σ) (l : List LogEvent),
       runLoops env params fm s0 = Sum.inr (r, l) →
       ∃ (temp : ℚ) (outer inner : ℕ) (st : SimState σ),
         StateInv env st ∧ st.best_cost ≤ env.cost s0 ∧
         innerStep ⟨env, params.cost_reduction_tol, env.cost s0,
             params.verbose, fm⟩ temp outer inner st = Sum.inr (r, l) ∧
         stepBestCost ⟨env, params.cost_reduction_tol, env.cost s0,
             params.verbose, fm⟩ st ≤ r.finalcost ∧
         r.finalcost = env.cost r.best) := by
  refine ⟨fun C temp outer inner st st1 h =>
            innerStep_best_mono C temp outer inner st st1 h,
          fun C st => stepBestCost_le C st,
          fun C temp outer inner st p h0 h =>
            innerStep_inr_bestCost C temp outer inner st p h0 h,
          fun st h => ?_, fun r l h => ?_⟩
  · have hmono := outerLoop_best_mono
      ⟨env, params.cost_reduction_tol, env.cost s0, params.verbose, fm⟩
      params.iters_per_temp params.alpha params.max_temps 0 1
      (initState env s0) st h
    have hinv := outerLoop_inv
      ⟨env, params.cost_reduction_tol, env.cost s0, params.verbose, fm⟩
      params.iters_per_temp params.alpha params.max_temps 0 1
      (initState env s0) st (initState_inv env s0) h
    obtain ⟨h1, h2, _⟩ := hinv
    exact ⟨by simpa [initState] using hmono, h1, h2 ▸ h1⟩
  · obtain ⟨temp1, outer1, inner1, st1, hi, hm, hstep⟩ := outerLoop_inr_ex
      ⟨env, params.cost_reduction_tol, env.cost s0, params.verbose, fm⟩
      params.iters_per_temp params.alpha params.max_temps 0 1
      (initState env s0) (r, l) (initState_inv env s0) h
    have hb := innerStep_inr_bestCost
      ⟨env, params.cost_reduction_tol, env.cost s0, params.verbose, fm⟩
      temp1 outer1 inner1 st1 (r, l) hi.1 hstep
    exact ⟨temp1, outer1, inner1, st1, hi, by simpa [initState] using hm,
      hstep, hb.1, hb.2⟩

/-- C7, witness: the exhausted tie run instantiates the Exhausted
conjunct (final best cost 5 is below the initial cost 10 and below the
final current cost), and the converging run instantiates the Converged
conjunct (its terminal step's best cost is at most the returned final
cost 1, which is the returned solution's own cost). -/
theorem C7_witness :
    (({ s := 2, cost_old := 5, best := 1, best_cost := 5, fevals := 2,
        k := 2, log := [] } : SimState ℕ).best_cost ≤ envTie.cost 0 ∧
     ({ s := 2, cost_old := 5, best := 1, best_cost := 5, fevals := 2,
        k := 2, log := [] } : SimState ℕ).best_cost ≤ envTie.cost 2) ∧
    (∃ (temp : ℚ) (outer inner : ℕ) (st : SimState ℕ),
       StateInv envConv st ∧ st.best_cost ≤ envConv.cost 0 ∧
       innerStep ⟨envConv, paramsConv.cost_reduction_tol, envConv.cost 0,
           paramsConv.verbose, false⟩ temp outer inner st =
         Sum.inr ({ best := 1, finalcost := 1, function_evals := 1,
                    iterations := 0 }, []) ∧
       stepBestCost ⟨envConv, paramsConv.cost_reduction_tol, envConv.cost 0,
           paramsConv.verbose, false⟩ st ≤ 1 ∧
       (1 : Int) = envConv.cost 1) := by
  have h := (C7_best_cost_monotone envTie paramsTie false 0).2.2.2.1
    { s := 2, cost_old := 5, best := 1, best_cost := 5, fevals := 2,
      k := 2, log := [] } (by decide)
  have h2 := (C7_best_cost_monotone envConv paramsConv false 0).2.2.2.2
    { best := 1, finalcost := 1, function_evals := 1, iterations := 0 } []
    (by decide)
  exact ⟨⟨h.1, h.2.2⟩, h2⟩

def envPzero : RunEnv Unit :=
  { cost := fun _ => 0, perturbF := fun _ _ => (),
    acceptance_f := fun _ _ _ => FVal.num 0, rnd := fun _ => 0 }

def ctxPzero : RunCtx Unit :=
  { env := envPzero, tol := 0, cost_init := 0, verbose := false,
    fastMath := false }

/-- C8, counterexample: the draw is `rand()/RAND_MAX` with `rand()`
ranging up to `RAND_MAX` inclusive, so `r` can equal exactly 1 — it is
drawn from `[0,1]`, not `[0,1)` — and then even a candidate whose
acceptance probability is exactly 1 is rejected (`1 > 1` fails),
although under the claimed `r ∈ [0,1)` model `p = 1` would always
accept. -/
theorem C8_counterexample :
    envEdge.acceptance_f 0 0 1 = FVal.num 1 ∧
    mkRat (envEdge.rnd 0) RANDMAX = 1 ∧
    stepAccepted ctxEdge 1 (initState envEdge ()) = false ∧
    innerStep ctxEdge 1 0 0 (initState envEdge ()) =
      Sum.inl { s := (), cost_old := 0, best := (), best_cost := 0,
                fevals := 1, k := 1, log := [] } := by
  refine ⟨rfl, by decide, by decide, by decide⟩

/-- C8, amended: on every non-improving step (and the acceptance
machinery is consulted on no other kind of step) the engine computes
the acceptance probability, draws `r = rand()/RAND_MAX` — a value in
`[0,1]`, the right endpoint attainable — and accepts exactly when
`p > r` holds strictly, so a probability of 0 never accepts. -/
theorem C8_acceptance_rule {σ : Type} (C : RunCtx σ) (temp : ℚ)
    (outer inner : ℕ) (st : SimState σ) :
    (0 ≤ mkRat (C.env.rnd st.k) RANDMAX ∧
       (C.env.rnd st.k ≤ RANDMAX → mkRat (C.env.rnd st.k) RANDMAX ≤ 1)) ∧
    (¬ C.env.cost (C.env.perturbF st.k st.s) < st.cost_old →
       stepAccepted C temp st =
         (sanitizeProb C.fastMath
             (C.env.acceptance_f st.cost_old
               (C.env.cost (C.env.perturbF st.k st.s)) temp)).gtReal
           (mkRat (C.env.rnd st.k) RANDMAX)) ∧
    (¬ C.env.cost (C.env.perturbF st.k st.s) < st.cost_old →
       C.env.acceptance_f st.cost_old
           (C.env.cost (C.env.perturbF st.k st.s)) temp = FVal.num 0 →
       innerStep C temp outer inner st =
         Sum.inl { st with fevals := st.fevals + 1, k := st.k + 1 }) ∧
    (stepAccepted C temp st = false →
       innerStep C temp outer inner st =
         Sum.inl { st with fevals := st.fevals + 1, k := st.k + 1 }) ∧
    (C.env.cost (C.env.perturbF st.k st.s) < st.cost_old →
       stepAccepted C temp st = true) := by
  have hx : 0 ≤ (mkRat (C.env.rnd st.k) RANDMAX : ℚ) := by
    rw [mkRat_rnd_eq_div]
    positivity
  refine ⟨⟨hx, fun hr => ?_⟩, fun hni => ?_, fun hni h0 => ?_,
          fun hacc => innerStep_rejected C temp outer inner st hacc,
          fun himp => ?_⟩
  · rw [mkRat_rnd_eq_div]
    rw [div_le_one (by norm_num [RANDMAX])]
    exact_mod_cast Nat.cast_le.mpr hr
  · simp only [stepAccepted]
    rw [if_neg hni]
  · apply innerStep_rejected
    simp only [stepAccepted, h0]
    rw [if_neg hni]
    cases hfm : C.fastMath with
    | false =>
      show (FVal.num 0).gtReal (mkRat (C.env.rnd st.k) RANDMAX) = false
      simp only [FVal.gtReal, decide_eq_false_iff_not, not_lt]
      exact hx
    | true =>
      show (FVal.num 0).gtReal (mkRat (C.env.rnd st.k) RANDMAX) = false
      simp only [FVal.gtReal, decide_eq_false_iff_not, not_lt]
      exact hx
  · simp only [stepAccepted]
    rw [if_pos himp]

/-- C8, witness for the amended theorem: a concrete non-improving step
with acceptance probability 0 is rejected. -/
theorem C8_witness :
    innerStep ctxPzero 1 0 0 (initState envPzero ()) =
      Sum.inl { s := (), cost_old := 0, best := (), best_cost := 0,
                fevals := 1, k := 1, log := [] } :=
  (C8_acceptance_rule ctxPzero 1 0 0 (initState envPzero ())).2.2.1
    (by decide) rfl

end GenericSimAnnealing

namespace GenericSimAnnealing

/-- C9: `verbose` is purely observational — two runs identical except
for `verbose` produce the same result record (solution, final cost,
evaluation count, iterations); only the diagnostic output differs. -/
theorem C9_verbose_observational {σ : Type} (env : RunEnv σ)
    (params : GenSimAnnealParams) (fm : Bool) (s0 : σ) (v w : Bool) :
    (genericSimulatedAnneal env { params with verbose := v } fm s0).1 =
      (genericSimulatedAnneal env { params with verbose := w } fm s0).1 := by
  simp only [genericSimulatedAnneal, runLoops]
  rcases outerLoop_verbose env params.cost_reduction_tol (env.cost s0) v w fm
      params.iters_per_temp params.alpha params.max_temps 0 1
      (initState env s0) (initState env s0) (coreEq_refl _) with
    ⟨t1, t2, h1, h2, hc⟩ | ⟨r, l1, l2, h1, h2⟩
  · rw [h1, h2]
    exact exhaustedResult_core env params.max_temps v w t1 t2 hc
  · rw [h1, h2]

/-- C10: the tracked best cost never exceeds the current accepted
solution's cost at any instant: it holds after initialization, and
every continuing inner step preserves it. -/
theorem C10_best_le_current {σ : Type} (env : RunEnv σ) (s0 : σ) :
    (initState env s0).best_cost ≤ (initState env s0).cost_old ∧
    (∀ (C : RunCtx σ) (temp : ℚ) (outer inner : ℕ) (st st1 : SimState σ),
       st.best_cost ≤ st.cost_old →
       innerStep C temp outer inner st = Sum.inl st1 →
       st1.best_cost ≤ st1.cost_old) := by
  refine ⟨le_refl _, fun C temp outer inner st st1 h0 h => ?_⟩
  simp only [innerStep, acceptedUpdate] at h
  split_ifs at h <;>
    first
      | (injection h with hh; subst hh; dsimp only; omega)
      | injection h

/-- C10, witness: the invariant holds at the initial state of the tie
run and is preserved across its first (improving, accepted) step. -/
theorem C10_witness :
    (initState envTie 0).best_cost ≤ (initState envTie 0).cost_old ∧
    ({ s := 1, cost_old := 5, best := 1, best_cost := 5, fevals := 1,
       k := 1, log := [] } : SimState ℕ).best_cost ≤
      ({ s := 1, cost_old := 5, best := 1, best_cost := 5, fevals := 1,
         k := 1, log := [] } : SimState ℕ).cost_old := by
  have h := C10_best_le_current envTie 0
  exact ⟨h.1, h.2 ⟨envTie, 0, 10, false, false⟩ 1 0 0 (initState envTie 0)
    { s := 1, cost_old := 5, best := 1, best_cost := 5, fevals := 1,
      k := 1, log := [] } (by decide) (by decide)⟩

end GenericSimAnnealing
